import Mathlib

/-!
Shallow embedding of the CuTe layout-algebra engine of `cute-layout-viz`
(`src/utils/layoutUtils.ts`, the extended revision embedded in
`src/utils/layoutTest.ts`, and the `Layout` class constructor).
JavaScript numbers are modelled as `Nat`: every claim below constrains
leaves and divisors to non-negative (mostly positive) integers, where JS
`%` and `Math.floor(a / b)` agree with `Nat.mod` and `Nat.div`.
Functions that `throw` in TypeScript return `Except String`.
-/

/-- `LayoutValue = number | LayoutValue[]` from `layoutUtils.ts`. -/
inductive LayoutValue where
  | leaf : Nat → LayoutValue
  | node : List LayoutValue → LayoutValue

namespace LayoutViz

open LayoutValue

mutual
/-- Decidable equality on `LayoutValue`. -/
def lvDecEq : (a b : LayoutValue) → Decidable (a = b)
  | .leaf a, .leaf b =>
      match Nat.decEq a b with
      | isTrue h => isTrue (by rw [h])
      | isFalse h => isFalse (by intro hh; cases hh; exact h rfl)
  | .node a, .node b =>
      match lvDecEqList a b with
      | isTrue h => isTrue (by rw [h])
      | isFalse h => isFalse (by intro hh; cases hh; exact h rfl)
  | .leaf _, .node _ => isFalse (by intro h; cases h)
  | .node _, .leaf _ => isFalse (by intro h; cases h)

/-- List worker of `lvDecEq`. -/
def lvDecEqList : (a b : List LayoutValue) → Decidable (a = b)
  | [], [] => isTrue rfl
  | [], _ :: _ => isFalse (by intro h; cases h)
  | _ :: _, [] => isFalse (by intro h; cases h)
  | x :: xs, y :: ys =>
      match lvDecEq x y, lvDecEqList xs ys with
      | isTrue h1, isTrue h2 => isTrue (by rw [h1, h2])
      | isFalse h1, _ => isFalse (by intro hh; injection hh with hh1 hh2; exact h1 hh1)
      | _, isFalse h2 => isFalse (by intro hh; injection hh with hh1 hh2; exact h2 hh2)
end

instance : DecidableEq LayoutValue := lvDecEq

mutual
/-- `flattenNested` (layoutUtils.ts): pre-order sequence of the leaves. -/
def flattenNested : LayoutValue → List Nat
  | .leaf n => [n]
  | .node l => flattenNestedList l

/-- List worker of `flattenNested` (the `for` loop over a node's items). -/
def flattenNestedList : List LayoutValue → List Nat
  | [] => []
  | x :: xs => flattenNested x ++ flattenNestedList xs
end

/-- `flattenCoord` (layoutUtils.ts) is `flattenNested` on a coordinate. -/
def flattenCoord : LayoutValue → List Nat := flattenNested

mutual
/-- `countElements` (layoutUtils.ts): leaf value, or product over children. -/
def countElements : LayoutValue → Nat
  | .leaf n => n
  | .node l => countElementsList l

/-- List worker of `countElements` (the `result *=` loop, init 1). -/
def countElementsList : List LayoutValue → Nat
  | [] => 1
  | x :: xs => countElements x * countElementsList xs
end

mutual
/-- Structural equality of two trees (nesting and arity only, leaf values
ignored): the invariant that `validateLayout` checks. -/
def sameStruct : LayoutValue → LayoutValue → Bool
  | .leaf _, .leaf _ => true
  | .node a, .node b => sameStructList a b
  | _, _ => false

/-- List worker of `sameStruct`: equal length and pointwise `sameStruct`. -/
def sameStructList : List LayoutValue → List LayoutValue → Bool
  | [], [] => true
  | x :: xs, y :: ys => sameStruct x y && sameStructList xs ys
  | _, _ => false
end

/-- One pushed element of `combine`'s inner loop (layoutUtils.ts,
`generateCoordinates`): a numeric `restCoord` gives `[restCoord, lastVal]`,
an array `restCoord` is spread as `[...restCoord, lastVal]`. -/
def combineElem (restCoord lastVal : LayoutValue) : LayoutValue :=
  match restCoord with
  | .leaf r => .node [.leaf r, lastVal]
  | .node cs => .node (cs ++ [lastVal])

/-- `combine` of `generateCoordinates`, expressed on the reversed list of
per-dimension coordinate lists so the recursion (which peels off the last
list and recurses on `lists.slice(0, -1)`) is structural: the head of the
reversed list is the last dimension, iterated in the outer loop. -/
def combineRev : List (List LayoutValue) → List LayoutValue
  | [] => []
  | [xs] => xs
  | lastCoords :: rest =>
      lastCoords.flatMap fun lc => (combineRev rest).map fun rc => combineElem rc lc

/-- The nested `combine` helper of `generateCoordinates` (layoutUtils.ts):
empty input gives `[]`, a single list is returned as is, otherwise the last
dimension varies slowest over the combination of all earlier dimensions. -/
def combine (lists : List (List LayoutValue)) : List LayoutValue :=
  combineRev lists.reverse

mutual
/-- The coordinate enumeration of `generateCoordinates` (layoutUtils.ts)
before the optional final flattening: a leaf `n` gives `0, 1, ..., n-1`;
a node combines its children's coordinate lists with `combine`. -/
def genCoords : LayoutValue → List LayoutValue
  | .leaf n => (List.range n).map .leaf
  | .node l => combine (genCoordsList l)

/-- List worker of `genCoords` (the `shape.map(s => generateCoordinates(s))`). -/
def genCoordsList : List LayoutValue → List (List LayoutValue)
  | [] => []
  | s :: ss => genCoords s :: genCoordsList ss
end

/-- `generateCoordinates(shape, flat)` (layoutUtils.ts): the enumeration,
with each coordinate flattened to a flat list when `flat` is true. -/
def generateCoordinates (shape : LayoutValue) (flat : Bool := false) :
    List LayoutValue :=
  if flat then (genCoords shape).map fun c => .node ((flattenCoord c).map .leaf)
  else genCoords shape

mutual
/-- `validateLayout` (layoutUtils.ts): structural match check; the type
check branches cannot fire in this embedding (every value is a leaf number
or a node array). -/
def validateLayout : LayoutValue → LayoutValue → Except String Unit
  | .leaf _, .leaf _ => .ok ()
  | .node shape, .node stride =>
      if shape.length ≠ stride.length then
        .error "Structure mismatch: shape and stride have different element counts"
      else validateLayoutList shape stride
  | .leaf _, .node _ => .error "Structure mismatch: shape is number, stride is array"
  | .node _, .leaf _ => .error "Structure mismatch: shape is array, stride is number"

/-- List worker of `validateLayout` (the `for` loop of recursive calls);
its unequal-length fallthrough is unreachable because `validateLayout`
checks lengths first. -/
def validateLayoutList : List LayoutValue → List LayoutValue → Except String Unit
  | [], _ => .ok ()
  | s :: ss, t :: ts =>
      match validateLayout s t with
      | .error e => .error e
      | .ok () => validateLayoutList ss ts
  | _ :: _, [] => .ok ()
end

/-- The `Layout` class: a shape/stride pair. -/
structure Layout where
  shape : LayoutValue
  stride : LayoutValue

/-- The `Layout` constructor: `validateLayout(shape, stride)` then store. -/
def Layout.make (shape stride : LayoutValue) : Except String Layout :=
  match validateLayout shape stride with
  | .error e => .error e
  | .ok () => .ok ⟨shape, stride⟩

mutual
/-- State-passing worker of `unflattenLike` (`unflattenRecursive` plus the
mutable `index`): rebuilds a tree shaped like the template from the flat
list, returning the unconsumed suffix.  Reading past the end of the flat
list (impossible once the length pre-check passed) yields the default 0. -/
def unflattenGo : LayoutValue → List Nat → LayoutValue × List Nat
  | .leaf _, xs => (.leaf (xs.headD 0), xs.tail)
  | .node ts, xs =>
      let r := unflattenGoList ts xs
      (.node r.1, r.2)

/-- List worker of `unflattenGo`. -/
def unflattenGoList : List LayoutValue → List Nat → List LayoutValue × List Nat
  | [], xs => ([], xs)
  | t :: ts, xs =>
      let r := unflattenGo t xs
      let rs := unflattenGoList ts r.2
      (r.1 :: rs.1, rs.2)
end

/-- `unflattenLike` (layoutTest.ts revision): reassemble a flat array into
the template's nesting; `none` models the thrown length-mismatch error. -/
def unflattenLike (flatArray : List Nat) (template : LayoutValue) :
    Option LayoutValue :=
  if flatArray.length = (flattenNested template).length then
    some (unflattenGo template flatArray).1
  else none

/-- `divideRecursive` inside `divideLayout` (layoutTest.ts revision):
left-to-right consumption of the divisor over the flattened modes.
`strides.headD 0 / strides.tail` stand for `strides[0]` / `strides.slice(1)`
(the default is never read when stride and shape lists have equal length). -/
def divideRecursive :
    List Nat → List Nat → Nat → Except String (List Nat × List Nat)
  | [], _, remainingDivisor =>
      if remainingDivisor ≠ 1 then
        .error "Stride divisibility condition violated: divisor remaining after dividing all shapes"
      else .ok ([], [])
  | firstShape :: restShape, strides, remainingDivisor =>
      if remainingDivisor = 1 then .ok (firstShape :: restShape, strides)
      else if remainingDivisor ≤ firstShape then
        if firstShape % remainingDivisor ≠ 0 then
          .error "Stride divisibility condition violated: mode not divisible by divisor"
        else
          .ok (firstShape / remainingDivisor :: restShape,
               strides.headD 0 * remainingDivisor :: strides.tail)
      else if remainingDivisor % firstShape ≠ 0 then
        .error "Stride divisibility condition violated: cannot divide divisor by mode"
      else
        match divideRecursive restShape strides.tail (remainingDivisor / firstShape) with
        | .error e => .error e
        | .ok (restShapes, restStrides) =>
            .ok (1 :: restShapes, strides.headD 0 * remainingDivisor :: restStrides)

/-- `divideLayout` (layoutTest.ts revision): flatten, divide, unflatten
back into the original nesting of shape and stride. -/
def divideLayout (shape stride : LayoutValue) (divisor : Nat) :
    Except String (LayoutValue × LayoutValue) :=
  match divideRecursive (flattenNested shape) (flattenNested stride) divisor with
  | .error e => .error e
  | .ok (resultShapes, resultStrides) =>
      match unflattenLike resultShapes shape, unflattenLike resultStrides stride with
      | some s, some t => .ok (s, t)
      | _, _ => .error "Flat array length does not match template structure"

/-- The `for` loop of `modShape` (layoutTest.ts revision) over the
flattened shape, with the running `remaining` value. -/
def modShapeFlat : List Nat → Nat → List Nat
  | [], _ => []
  | s :: rest, remaining =>
      if remaining ≥ s then s :: modShapeFlat rest (remaining / s)
      else if remaining > 0 then remaining :: modShapeFlat rest 1
      else 1 :: modShapeFlat rest remaining

/-- `modShape` (layoutTest.ts revision): flatten, truncate per mode,
unflatten into the original nesting.  `modShapeFlat` preserves the list
length, so the `unflattenLike` length check always passes and the
`.getD` default is dead code (proved in `modShape_eq_unflatten`). -/
def modShape (shape : LayoutValue) (modulus : Nat) : LayoutValue :=
  (unflattenLike (modShapeFlat (flattenNested shape) modulus) shape).getD (.leaf 0)

/-- The pop-while loop of `coalesceLayout` on the reversed top-level shape
list: drop leading (i.e. originally trailing) modes strictly equal to the
number `1`, popping the corresponding last stride each time; returns the
kept shape modes restored to original order plus the surviving strides. -/
def dropTrailingOnes :
    List LayoutValue → List LayoutValue → List LayoutValue × List LayoutValue
  | x :: rest, strides =>
      if x = .leaf 1 then dropTrailingOnes rest strides.dropLast
      else ((x :: rest).reverse, strides)
  | [], strides => ([], strides)

/-- `coalesceLayout` (layoutTest.ts revision): leaf shapes unchanged;
otherwise drop trailing size-1 modes, then collapse to `(1, 0)`, to the
single remaining pair, or keep the node.  `strideArray.headD (.leaf 0)`
stands for `strideArray[0]` (default never read on structurally matching
input). -/
def coalesceLayout (shape stride : LayoutValue) : LayoutValue × LayoutValue :=
  match shape with
  | .leaf _ => (shape, stride)
  | .node shapeList =>
      let strideArray := match stride with | .node l => l | .leaf _ => [stride]
      let r := dropTrailingOnes shapeList.reverse strideArray
      match r.1 with
      | [] => (.leaf 1, .leaf 0)
      | [s] => (s, r.2.headD (.leaf 0))
      | _ => (.node r.1, .node r.2)

mutual
/-- `composition` (layoutTest.ts revision): leaf/leaf inner is
divide-then-mod; node/node inner maps composition + coalesce over the
inner modes; any other combination (including running past the end of the
inner stride list, where `innerStride[i]` is `undefined`) throws. -/
def composition (outerShape outerStride innerShape innerStride : LayoutValue) :
    Except String (LayoutValue × LayoutValue) :=
  match innerShape, innerStride with
  | .leaf iS, .leaf iT =>
      match divideLayout outerShape outerStride iT with
      | .error e => .error e
      | .ok (tmpShape, tmpStride) => .ok (modShape tmpShape iS, tmpStride)
  | .node iShapes, .node iStrides =>
      match compositionModes outerShape outerStride iShapes iStrides with
      | .error e => .error e
      | .ok (resultShapes, resultStrides) =>
          .ok (.node resultShapes, .node resultStrides)
  | _, _ => .error "Inner shape and stride must have matching structure"

/-- The `for` loop over inner modes in `composition`: compose each inner
mode against the same outer layout, coalesce, and collect. -/
def compositionModes (outerShape outerStride : LayoutValue) :
    List LayoutValue → List LayoutValue →
    Except String (List LayoutValue × List LayoutValue)
  | [], _ => .ok ([], [])
  | _ :: _, [] => .error "Inner shape and stride must have matching structure"
  | iShape :: restShapes, iStride :: restStrides =>
      match composition outerShape outerStride iShape iStride with
      | .error e => .error e
      | .ok composed =>
          let simplified := coalesceLayout composed.1 composed.2
          match compositionModes outerShape outerStride restShapes restStrides with
          | .error e => .error e
          | .ok (ss, ts) => .ok (simplified.1 :: ss, simplified.2 :: ts)
end

/-- The flat mod/div loop of `offsetToCoordinate` (layoutTest.ts revision):
`result.push(remaining % dim); remaining = Math.floor(remaining / dim)`. -/
def offsetDigitsGo : List Nat → Nat → List LayoutValue
  | [], _ => []
  | dim :: rest, remaining => .leaf (remaining % dim) :: offsetDigitsGo rest (remaining / dim)

/-- `offsetToCoordinate` (layoutTest.ts revision): a leaf shape gives
`offset % shape`; an array shape is flattened and walked by mod/div; the
result is the flat digit list (the code never unflattens it). -/
def offsetToCoordinate (offset : Nat) (shape : LayoutValue) : LayoutValue :=
  match shape with
  | .leaf n => .leaf (offset % n)
  | .node _ => .node (offsetDigitsGo (flattenNested shape) offset)

/-! ### Validity predicates used by the claims -/

mutual
/-- Every node non-empty and every leaf positive (the "valid shape"
hypothesis of the claims). -/
def validShape : LayoutValue → Bool
  | .leaf n => decide (0 < n)
  | .node l => (decide (l ≠ [])) && validShapeList l

/-- List worker of `validShape`. -/
def validShapeList : List LayoutValue → Bool
  | [] => true
  | x :: xs => validShape x && validShapeList xs
end

mutual
/-- Every leaf positive. -/
def posLeaves : LayoutValue → Bool
  | .leaf n => decide (0 < n)
  | .node l => posLeavesList l

/-- List worker of `posLeaves`. -/
def posLeavesList : List LayoutValue → Bool
  | [] => true
  | x :: xs => posLeaves x && posLeavesList xs
end

mutual
/-- Sufficient condition for `generateCoordinates` to preserve nesting
(C3 amended): every node has at least two children and the first child of
every node is a leaf. -/
def nestOk : LayoutValue → Bool
  | .leaf _ => true
  | .node (.leaf _ :: y :: rest) => nestOkList (y :: rest)
  | .node _ => false

/-- List worker of `nestOk`. -/
def nestOkList : List LayoutValue → Bool
  | [] => true
  | x :: xs => nestOk x && nestOkList xs
end

/-! ### Specification-side definitions (worded from spec.md, to be compared
with the source-derived definitions above) -/

/-- Modelled from the spec's column-major order: the mixed-radix digits of
`i` over the flattened shape leaves, first leaf varying fastest
(`c[0] = i mod s0`, then divide by `s0`, and so on). -/
def mixedRadixDigits : Nat → List Nat → List Nat
  | _, [] => []
  | i, s :: rest => (i % s) :: mixedRadixDigits (i / s) rest

/-- The full column-major enumeration of a flat shape: the mixed-radix
digit lists of `0, 1, ..., prod - 1`. -/
def colexEnum (F : List Nat) : List (List Nat) :=
  (List.range F.prod).map fun i => mixedRadixDigits i F

/-- Modelled from the spec's §4.4 wording of division: with remaining
divisor `r`, a mode `(s, st)` becomes `(s / r, st * r)` and consumption
stops when `r ≤ s` and `r` divides `s`; becomes `(1, st * r)` (the entire
remaining divisor) with consumption continuing at `r / s` when `r > s` and
`s` divides `r`; modes after full consumption pass through; running out of
modes with `r ≠ 1` fails. -/
def divideSpecFlat : List Nat → List Nat → Nat → Option (List Nat × List Nat)
  | [], [], r => if r = 1 then some ([], []) else none
  | s :: ss, st :: sts, r =>
      if r = 1 then some (s :: ss, st :: sts)
      else if r ≤ s then
        if s % r = 0 then some (s / r :: ss, st * r :: sts) else none
      else if r % s = 0 then
        (divideSpecFlat ss sts (r / s)).map fun p => (1 :: p.1, st * r :: p.2)
      else none
  | _, _, _ => none

/-- Modelled from the spec's §4.4/§7 wording of when division fails: some
mode of size `s` meets remaining divisor `r ≥ 2` with `r ≤ s` and
`s mod r ≠ 0`, or `r > s` and `r mod s ≠ 0`; or the modes run out while
`r ≠ 1`. -/
def divideFailSpec : List Nat → Nat → Bool
  | [], r => decide (r ≠ 1)
  | s :: ss, r =>
      if r = 1 then false
      else if r ≤ s then decide (s % r ≠ 0)
      else decide (r % s ≠ 0) || divideFailSpec ss (r / s)

/-- Modelled from the spec's §4.5 wording of modulo: keep `s` and divide
`remaining` by `s` (flooring) when `remaining ≥ s`; keep `remaining` and
force the rest to 1 when `0 < remaining < s`; keep 1 when `remaining = 0`. -/
def modSpecFlat : List Nat → Nat → List Nat
  | [], _ => []
  | s :: rest, remaining =>
      if s ≤ remaining then s :: modSpecFlat rest (remaining / s)
      else if 0 < remaining then remaining :: modSpecFlat rest 1
      else 1 :: modSpecFlat rest remaining

/-- Modelled from the spec's §4.6 wording of coalesce: a leaf shape is
returned unchanged; otherwise remove the trailing size-1 modes together
with the strides at the same positions, then collapse to `(1, 0)`, unwrap
a single remaining pair, or keep the node. -/
def coalesceSpec (shape stride : LayoutValue) : LayoutValue × LayoutValue :=
  match shape, stride with
  | .node sl, .node tl =>
      let kept := (sl.reverse.dropWhile fun v => v = .leaf 1).reverse
      let keptStrides := tl.take kept.length
      match kept, keptStrides with
      | [], _ => (.leaf 1, .leaf 0)
      | [s], [t] => (s, t)
      | ks, ts => (.node ks, .node ts)
  | _, _ => (shape, stride)

/-! ### Basic structural lemmas -/

theorem flattenNestedList_append (a b : List LayoutValue) :
    flattenNestedList (a ++ b) = flattenNestedList a ++ flattenNestedList b := by
  induction a with
  | nil => simp [flattenNestedList]
  | cons x xs ih => simp [flattenNestedList, ih]

theorem flattenNestedList_eq (l : List LayoutValue) :
    flattenNestedList l = (l.map flattenNested).flatten := by
  induction l with
  | nil => simp [flattenNestedList]
  | cons x xs ih => simp [flattenNestedList, ih]

theorem genCoordsList_eq (l : List LayoutValue) :
    genCoordsList l = l.map genCoords := by
  induction l with
  | nil => simp [genCoordsList]
  | cons x xs ih => simp [genCoordsList, ih]

theorem countElementsList_eq (l : List LayoutValue) :
    countElementsList l = (l.map countElements).prod := by
  induction l with
  | nil => simp [countElementsList]
  | cons x xs ih => simp [countElementsList, ih]

mutual
theorem countElements_eq_prod : ∀ t : LayoutValue,
    countElements t = (flattenNested t).prod
  | .leaf n => by simp [countElements, flattenNested]
  | .node l => by
      simp only [countElements, flattenNested]
      exact countElementsList_eq_prod l

theorem countElementsList_eq_prod : ∀ l : List LayoutValue,
    countElementsList l = (flattenNestedList l).prod
  | [] => by simp [countElementsList, flattenNestedList]
  | x :: xs => by
      simp only [countElementsList, flattenNestedList, List.prod_append]
      rw [countElements_eq_prod x, countElementsList_eq_prod xs]
end

theorem sameStructList_length : ∀ a b : List LayoutValue,
    sameStructList a b = true → a.length = b.length
  | [], [] => by simp
  | [], _ :: _ => by simp [sameStructList]
  | _ :: _, [] => by simp [sameStructList]
  | x :: xs, y :: ys => by
      simp only [sameStructList, Bool.and_eq_true, List.length_cons]
      intro ⟨_, h2⟩
      rw [sameStructList_length xs ys h2]

mutual
theorem sameStruct_flatten_length : ∀ a b : LayoutValue,
    sameStruct a b = true → (flattenNested a).length = (flattenNested b).length
  | .leaf _, .leaf _ => by simp [flattenNested]
  | .leaf _, .node _ => by simp [sameStruct]
  | .node _, .leaf _ => by simp [sameStruct]
  | .node a, .node b => by
      simp only [sameStruct, flattenNested]
      exact sameStructList_flatten_length a b

theorem sameStructList_flatten_length : ∀ a b : List LayoutValue,
    sameStructList a b = true →
    (flattenNestedList a).length = (flattenNestedList b).length
  | [], [] => by simp
  | [], _ :: _ => by simp [sameStructList]
  | _ :: _, [] => by simp [sameStructList]
  | x :: xs, y :: ys => by
      simp only [sameStructList, Bool.and_eq_true, flattenNestedList,
        List.length_append]
      intro ⟨h1, h2⟩
      rw [sameStruct_flatten_length x y h1, sameStructList_flatten_length xs ys h2]
end

theorem flattenCoord_combineElem (rc lc : LayoutValue) :
    flattenCoord (combineElem rc lc) = flattenCoord rc ++ flattenCoord lc := by
  cases rc with
  | leaf r =>
      simp [combineElem, flattenCoord, flattenNested, flattenNestedList]
  | node cs =>
      simp [combineElem, flattenCoord, flattenNested, flattenNestedList_append,
        flattenNestedList]

theorem modShapeFlat_length (l : List Nat) (m : Nat) :
    (modShapeFlat l m).length = l.length := by
  induction l generalizing m with
  | nil => simp [modShapeFlat]
  | cons s rest ih =>
      simp only [modShapeFlat]
      split
      · simp [ih]
      · split
        · simp [ih]
        · simp [ih]

/-! ### Unflatten-by-template correctness -/

mutual
theorem unflattenGo_spec : ∀ (t : LayoutValue) (xs : List Nat),
    (flattenNested t).length ≤ xs.length →
    (unflattenGo t xs).2 = xs.drop (flattenNested t).length ∧
    sameStruct (unflattenGo t xs).1 t = true ∧
    flattenNested (unflattenGo t xs).1 = xs.take (flattenNested t).length
  | .leaf n, xs => by
      cases xs with
      | nil => intro h; simp [flattenNested] at h
      | cons y ys =>
          intro _
          simp [unflattenGo, flattenNested, sameStruct]
  | .node ts, xs => by
      intro h
      simp only [flattenNested] at h ⊢
      have hl := unflattenGoList_spec ts xs h
      simp only [unflattenGo, sameStruct, flattenNested]
      exact hl

theorem unflattenGoList_spec : ∀ (ts : List LayoutValue) (xs : List Nat),
    (flattenNestedList ts).length ≤ xs.length →
    (unflattenGoList ts xs).2 = xs.drop (flattenNestedList ts).length ∧
    sameStructList (unflattenGoList ts xs).1 ts = true ∧
    flattenNestedList (unflattenGoList ts xs).1 = xs.take (flattenNestedList ts).length
  | [], xs => by
      intro _
      simp [unflattenGoList, flattenNestedList, sameStructList]
  | t :: ts, xs => by
      intro h
      simp only [flattenNestedList, List.length_append] at h ⊢
      have h1 : (flattenNested t).length ≤ xs.length := le_trans (Nat.le_add_right _ _) h
      obtain ⟨e1, s1, f1⟩ := unflattenGo_spec t xs h1
      have h2 : (flattenNestedList ts).length ≤ ((unflattenGo t xs).2).length := by
        rw [e1, List.length_drop]
        omega
      obtain ⟨e2, s2, f2⟩ := unflattenGoList_spec ts (unflattenGo t xs).2 h2
      refine ⟨?_, ?_, ?_⟩
      · rw [unflattenGoList, e2, e1, List.drop_drop]
      · simp only [unflattenGoList, sameStructList, Bool.and_eq_true]
        exact ⟨s1, s2⟩
      · show flattenNestedList ((unflattenGo t xs).1
            :: (unflattenGoList ts (unflattenGo t xs).2).1) = _
        simp only [flattenNestedList]
        rw [f2, e1, f1, List.take_add]
end

theorem unflattenLike_of_length (xs : List Nat) (t : LayoutValue)
    (h : xs.length = (flattenNested t).length) :
    unflattenLike xs t = some (unflattenGo t xs).1 ∧
    sameStruct (unflattenGo t xs).1 t = true ∧
    flattenNested (unflattenGo t xs).1 = xs := by
  obtain ⟨_, s1, f1⟩ := unflattenGo_spec t xs (le_of_eq h.symm)
  refine ⟨?_, s1, ?_⟩
  · simp [unflattenLike, h]
  · rw [f1, ← h, List.take_length]

theorem unflattenLike_eq_some (xs : List Nat) (t : LayoutValue) (u : LayoutValue)
    (h : unflattenLike xs t = some u) :
    xs.length = (flattenNested t).length ∧
    sameStruct u t = true ∧ flattenNested u = xs := by
  by_cases hl : xs.length = (flattenNested t).length
  · obtain ⟨h1, h2, h3⟩ := unflattenLike_of_length xs t hl
    rw [h] at h1
    cases h1
    exact ⟨hl, h2, h3⟩
  · simp [unflattenLike, hl] at h

/-! ### Modulo (C7) -/

theorem modShapeFlat_eq_spec (l : List Nat) (m : Nat) :
    modShapeFlat l m = modSpecFlat l m := by
  induction l generalizing m with
  | nil => simp [modShapeFlat, modSpecFlat]
  | cons s rest ih =>
      simp only [modShapeFlat, modSpecFlat, ge_iff_le]
      split
      · rw [ih]
      · split
        · rw [ih]
        · rw [ih]

theorem modShape_eq_unflatten (shape : LayoutValue) (m : Nat) :
    unflattenLike (modShapeFlat (flattenNested shape) m) shape
      = some (modShape shape m) := by
  have hl : (modShapeFlat (flattenNested shape) m).length
      = (flattenNested shape).length := modShapeFlat_length _ _
  obtain ⟨h1, _, _⟩ := unflattenLike_of_length _ shape hl
  rw [modShape, h1]
  rfl

/-- C7: for every shape and non-negative modulus, `modShape` never fails
(the unflatten length check always passes), its flat walk agrees with the
spec's per-mode rule (`modSpecFlat`), and the flat result is reassembled
into a shape with exactly the input's nesting. -/
theorem claim_C7 (shape : LayoutValue) (modulus : Nat) :
    modShapeFlat (flattenNested shape) modulus
      = modSpecFlat (flattenNested shape) modulus ∧
    unflattenLike (modSpecFlat (flattenNested shape) modulus) shape
      = some (modShape shape modulus) ∧
    sameStruct (modShape shape modulus) shape = true ∧
    flattenNested (modShape shape modulus)
      = modSpecFlat (flattenNested shape) modulus := by
  have hs := modShapeFlat_eq_spec (flattenNested shape) modulus
  have hu := modShape_eq_unflatten shape modulus
  obtain ⟨h1, h2, h3⟩ := unflattenLike_eq_some _ _ _ hu
  exact ⟨hs, hs ▸ hu, h2, by rw [h3, hs]⟩

/-! ### Validation (C10) -/

mutual
theorem validateLayout_ok_iff : ∀ a b : LayoutValue,
    validateLayout a b = .ok () ↔ sameStruct a b = true
  | .leaf _, .leaf _ => by simp [validateLayout, sameStruct]
  | .leaf _, .node _ => by simp [validateLayout, sameStruct]
  | .node _, .leaf _ => by simp [validateLayout, sameStruct]
  | .node a, .node b => by
      simp only [validateLayout, sameStruct]
      by_cases hl : a.length = b.length
      · rw [if_neg (by simp [hl])]
        exact validateLayoutList_ok_iff a b hl
      · rw [if_pos (by simp [hl])]
        constructor
        · intro h; exact absurd h (by simp)
        · intro h; exact absurd (sameStructList_length a b h) hl

theorem validateLayoutList_ok_iff : ∀ a b : List LayoutValue,
    a.length = b.length →
    (validateLayoutList a b = .ok () ↔ sameStructList a b = true)
  | [], [] => by simp [validateLayoutList, sameStructList]
  | [], _ :: _ => by intro h; simp at h
  | _ :: _, [] => by intro h; simp at h
  | s :: ss, t :: ts => by
      intro h
      simp only [List.length_cons] at h
      simp only [validateLayoutList, sameStructList, Bool.and_eq_true]
      cases hv : validateLayout s t with
      | error e =>
          constructor
          · intro hh; exact absurd hh (by simp)
          · intro ⟨h1, _⟩
            have h2 := (validateLayout_ok_iff s t).mpr h1
            rw [hv] at h2
            exact absurd h2 (by simp)
      | ok u =>
          cases u
          have h1 : sameStruct s t = true := (validateLayout_ok_iff s t).mp hv
          rw [validateLayoutList_ok_iff ss ts (by omega)]
          simp [h1]
end

/-- C10: `validateLayout`, and hence the `Layout` constructor, succeeds
exactly on structurally matching shape/stride pairs; leaf values are never
inspected (zero leaves are accepted), and shape `[4,8]` with stride `1`
is rejected with an error rather than accepted. -/
theorem claim_C10 (shape stride : LayoutValue) :
    (validateLayout shape stride = .ok () ↔ sameStruct shape stride = true) ∧
    ((∃ l, Layout.make shape stride = .ok l) ↔ sameStruct shape stride = true) ∧
    (∃ e, validateLayout (.node [.leaf 4, .leaf 8]) (.leaf 1) = .error e) ∧
    validateLayout (.node [.leaf 0, .leaf 0]) (.node [.leaf 7, .leaf 9]) = .ok () := by
  refine ⟨validateLayout_ok_iff shape stride, ?_, ⟨_, rfl⟩, rfl⟩
  rw [← validateLayout_ok_iff shape stride]
  constructor
  · intro ⟨l, hl⟩
    cases hv : validateLayout shape stride with
    | error e => simp [Layout.make, hv] at hl
    | ok u => cases u; rfl
  · intro h
    exact ⟨⟨shape, stride⟩, by simp [Layout.make, h]⟩

/-! ### Coalesce (C8) -/

theorem dropWhile_length_le (p : LayoutValue → Bool) (l : List LayoutValue) :
    (l.dropWhile p).length ≤ l.length :=
  (l.dropWhile_sublist p).length_le

theorem dropTrailingOnes_spec : ∀ (rs tl : List LayoutValue),
    rs.length = tl.length →
    dropTrailingOnes rs tl
      = ((rs.dropWhile fun v => v = .leaf 1).reverse,
         tl.take (rs.dropWhile fun v => v = .leaf 1).length)
  | [], tl => by
      intro h
      have : tl = [] := List.eq_nil_of_length_eq_zero h.symm
      subst this
      simp [dropTrailingOnes]
  | x :: rest, tl => by
      intro h
      simp only [List.length_cons] at h
      by_cases hx : x = .leaf 1
      · have hlen : rest.length = tl.dropLast.length := by
          rw [List.length_dropLast]; omega
        rw [dropTrailingOnes, if_pos hx, dropTrailingOnes_spec rest tl.dropLast hlen]
        have hdw : (x :: rest).dropWhile (fun v => decide (v = .leaf 1))
            = rest.dropWhile (fun v => decide (v = .leaf 1)) := by
          simp [List.dropWhile, hx]
        rw [hdw]
        have hk : (rest.dropWhile fun v => decide (v = .leaf 1)).length ≤ tl.length - 1 :=
          le_trans (dropWhile_length_le _ rest) (by omega)
        rw [List.dropLast_eq_take, List.take_take, Nat.min_eq_left hk]
      · rw [dropTrailingOnes, if_neg hx]
        have hdw : (x :: rest).dropWhile (fun v => decide (v = .leaf 1)) = x :: rest := by
          simp [List.dropWhile, hx]
        rw [hdw, List.take_of_length_le (by simp; omega)]

/-- C8: `coalesceLayout` agrees with the spec's description (leaf shapes
unchanged; trailing size-1 top-level modes dropped with their strides,
without recursing into sub-shapes; collapse to `(1,0)` / the unwrapped
single pair / the remaining node), and the two worked examples hold. -/
theorem claim_C8 (shape stride : LayoutValue)
    (h : sameStruct shape stride = true) :
    coalesceLayout shape stride = coalesceSpec shape stride ∧
    coalesceLayout (.node [.leaf 3, .leaf 1]) (.node [.leaf 8, .leaf 2])
      = (.leaf 3, .leaf 8) ∧
    coalesceLayout (.node [.leaf 2, .leaf 2]) (.node [.leaf 24, .leaf 2])
      = (.node [.leaf 2, .leaf 2], .node [.leaf 24, .leaf 2]) := by
  refine ⟨?_, by decide, by decide⟩
  cases shape with
  | leaf n =>
      cases stride with
      | leaf m => rfl
      | node tl => simp [sameStruct] at h
  | node sl =>
      cases stride with
      | leaf m => simp [sameStruct] at h
      | node tl =>
          simp only [sameStruct] at h
          have hlen : sl.length = tl.length := sameStructList_length sl tl h
          have hspec := dropTrailingOnes_spec sl.reverse tl (by simp [hlen])
          simp only [coalesceLayout, coalesceSpec]
          rw [hspec]
          simp only [List.length_reverse]
          rcases hK : (sl.reverse.dropWhile fun v => v = .leaf 1).reverse with _ | ⟨s1, Krest⟩
          · have h0 : (sl.reverse.dropWhile fun v => v = .leaf 1).length = 0 := by
              simpa using congrArg List.length hK
            simp [hK, h0]
          · have hKlen : (sl.reverse.dropWhile fun v => v = .leaf 1).length
                = Krest.length + 1 := by
              simpa [Nat.add_comm] using congrArg List.length hK
            have htl_len : Krest.length + 1 ≤ tl.length := by
              rw [← hKlen]
              exact le_trans (dropWhile_length_le _ _) (by simp [hlen])
            rcases Krest with _ | ⟨s2, Krest2⟩
            · rcases tl with _ | ⟨t0, tlrest⟩
              · simp at htl_len
              · simp [hK, hKlen]
            · simp [hK, hKlen]

theorem claim_C8_witness :
    sameStruct (.node [.leaf 3, .leaf 1]) (.node [.leaf 8, .leaf 2]) = true ∧
    coalesceLayout (.node [.leaf 3, .leaf 1]) (.node [.leaf 8, .leaf 2])
      = coalesceSpec (.node [.leaf 3, .leaf 1]) (.node [.leaf 8, .leaf 2]) :=
  ⟨by decide, (claim_C8 _ _ (by decide)).1⟩

/-! ### Division (C2, C6) -/


theorem divideRecursive_cons_consume (s : Nat) (ss strides : List Nat) (r : Nat)
    (hr : r ≠ 1) (hle : ¬ r ≤ s) (hmod : r % s = 0) :
    divideRecursive (s :: ss) strides r =
      match divideRecursive ss strides.tail (r / s) with
      | .error e => .error e
      | .ok (a, b) => .ok (1 :: a, strides.headD 0 * r :: b) := by
  simp [divideRecursive, hr, hle, hmod]

theorem divideSpecFlat_cons_consume (s : Nat) (ss sts : List Nat) (st r : Nat)
    (hr : r ≠ 1) (hle : ¬ r ≤ s) (hmod : r % s = 0) :
    divideSpecFlat (s :: ss) (st :: sts) r =
      (divideSpecFlat ss sts (r / s)).map fun p => (1 :: p.1, st * r :: p.2) := by
  simp [divideSpecFlat, hr, hle, hmod]

theorem divideRecursive_ok_iff : ∀ (shapes strides : List Nat) (r : Nat)
    (p : List Nat × List Nat), shapes.length = strides.length →
    (divideRecursive shapes strides r = .ok p ↔ divideSpecFlat shapes strides r = some p)
  | [], [], r, p => by
      intro _
      by_cases hr : r = 1
      · simp [divideRecursive, divideSpecFlat, hr]
      · simp [divideRecursive, divideSpecFlat, hr]
  | [], _ :: _, _, _ => by intro h; simp at h
  | _ :: _, [], _, _ => by intro h; simp at h
  | s :: ss, st :: sts, r, p => by
      intro h
      simp only [List.length_cons] at h
      by_cases hr : r = 1
      · simp [divideRecursive, divideSpecFlat, hr]
      · by_cases hle : r ≤ s
        · by_cases hmod : s % r = 0
          · simp [divideRecursive, divideSpecFlat, hr, hle, hmod]
          · simp [divideRecursive, divideSpecFlat, hr, hle, hmod]
        · by_cases hmod : r % s = 0
          · rw [divideRecursive_cons_consume s ss (st :: sts) r hr hle hmod,
              divideSpecFlat_cons_consume s ss sts st r hr hle hmod]
            simp only [List.tail_cons, List.headD_cons]
            cases hrec : divideRecursive ss sts (r / s) with
            | error e =>
                rcases ho : divideSpecFlat ss sts (r / s) with _ | q
                · simp
                · have hc := (divideRecursive_ok_iff ss sts (r / s) q (by omega)).mpr ho
                  rw [hrec] at hc
                  exact absurd hc (by simp)
            | ok q =>
                obtain ⟨a, b⟩ := q
                have hs := (divideRecursive_ok_iff ss sts (r / s) (a, b) (by omega)).mp hrec
                rw [hs]
                simp
          · simp [divideRecursive, divideSpecFlat, hr, hle, hmod]

theorem divideRecursive_error_iff : ∀ (shapes strides : List Nat) (r : Nat),
    (∃ e, divideRecursive shapes strides r = .error e)
      ↔ divideFailSpec shapes r = true
  | [], strides, r => by
      by_cases hr : r = 1
      · simp [divideRecursive, divideFailSpec, hr]
      · simp [divideRecursive, divideFailSpec, hr]
  | s :: ss, strides, r => by
      by_cases hr : r = 1
      · simp [divideRecursive, divideFailSpec, hr]
      · by_cases hle : r ≤ s
        · by_cases hmod : s % r = 0
          · simp [divideRecursive, divideFailSpec, hr, hle, hmod]
          · simp [divideRecursive, divideFailSpec, hr, hle, hmod]
        · by_cases hmod : r % s = 0
          · rw [divideRecursive_cons_consume s ss strides r hr hle hmod]
            have hrest := divideRecursive_error_iff ss strides.tail (r / s)
            simp only [divideFailSpec, if_neg hr, if_neg hle]
            cases hrec : divideRecursive ss strides.tail (r / s) with
            | error e =>
                rw [hrec] at hrest
                simp [hmod, ← hrest]
            | ok q =>
                obtain ⟨a, b⟩ := q
                rw [hrec] at hrest
                simp [hmod, ← hrest]
          · simp [divideRecursive, divideFailSpec, hr, hle, hmod]

theorem divideRecursive_ok_lengths : ∀ (shapes strides : List Nat) (r : Nat)
    (a b : List Nat), shapes.length = strides.length →
    divideRecursive shapes strides r = .ok (a, b) →
    a.length = shapes.length ∧ b.length = shapes.length
  | [], strides, r, a, b => by
      intro h hok
      by_cases hr : r = 1
      · simp [divideRecursive, hr] at hok
        obtain ⟨h1, h2⟩ := hok
        subst h1; subst h2
        simp
      · simp [divideRecursive, hr] at hok
  | s :: ss, strides, r, a, b => by
      intro h hok
      simp only [List.length_cons] at h ⊢
      have hst : ss.length = strides.tail.length := by
        cases strides with
        | nil => simp at h
        | cons st sts => simpa using h
      by_cases hr : r = 1
      · simp [divideRecursive, hr] at hok
        obtain ⟨h1, h2⟩ := hok
        subst h1; subst h2
        exact ⟨by simp, by omega⟩
      · by_cases hle : r ≤ s
        · by_cases hmod : s % r = 0
          · simp [divideRecursive, hr, hle, hmod] at hok
            obtain ⟨h1, h2⟩ := hok
            subst h1; subst h2
            refine ⟨by simp, ?_⟩
            simp only [List.length_cons]
            omega
          · simp [divideRecursive, hr, hle, hmod] at hok
        · by_cases hmod : r % s = 0
          · rw [divideRecursive_cons_consume s ss strides r hr hle hmod] at hok
            cases hrec : divideRecursive ss strides.tail (r / s) with
            | error e => rw [hrec] at hok; exact absurd hok (by simp)
            | ok q =>
                obtain ⟨qa, qb⟩ := q
                rw [hrec] at hok
                have hlen := divideRecursive_ok_lengths ss strides.tail (r / s)
                  qa qb hst hrec
                simp at hok
                obtain ⟨h1, h2⟩ := hok
                subst h1; subst h2
                exact ⟨by simp [hlen.1], by simp [hlen.2]⟩
          · simp [divideRecursive, hr, hle, hmod] at hok

/-- C2: for structurally matching layouts with positive leaves and a
positive divisor on which `divideLayout` succeeds, the flat result is the
spec's left-to-right consumption (`divideSpecFlat`), the output trees are
reassembled into exactly the input nesting, and the worked division chain
holds. -/
theorem claim_C2 (shape stride : LayoutValue) (d : Nat)
    (out : LayoutValue × LayoutValue)
    (hstruct : sameStruct shape stride = true)
    (_hpos : posLeaves shape = true) (_hd : 0 < d)
    (hok : divideLayout shape stride d = .ok out) :
    divideSpecFlat (flattenNested shape) (flattenNested stride) d
      = some (flattenNested out.1, flattenNested out.2) ∧
    sameStruct out.1 shape = true ∧ sameStruct out.2 stride = true ∧
    divideLayout (.node [.leaf 3, .leaf 6, .leaf 2, .leaf 8])
        (.node [.leaf 5, .leaf 15, .leaf 90, .leaf 180]) 72
      = .ok (.node [.leaf 1, .leaf 1, .leaf 1, .leaf 4],
             .node [.leaf 360, .leaf 360, .leaf 360, .leaf 360]) := by
  have hflatlen : (flattenNested shape).length = (flattenNested stride).length :=
    sameStruct_flatten_length shape stride hstruct
  rw [divideLayout] at hok
  cases hrec : divideRecursive (flattenNested shape) (flattenNested stride) d with
  | error e => rw [hrec] at hok; exact absurd hok (by simp)
  | ok q =>
      obtain ⟨a, b⟩ := q
      rw [hrec] at hok
      cases ha : unflattenLike a shape with
      | none => simp [ha] at hok
      | some u =>
          cases hb : unflattenLike b stride with
          | none => simp [ha, hb] at hok
          | some v =>
              simp only [ha, hb, Except.ok.injEq] at hok
              subst hok
              obtain ⟨_, hss_u, hfl_u⟩ := unflattenLike_eq_some a shape u ha
              obtain ⟨_, hss_v, hfl_v⟩ := unflattenLike_eq_some b stride v hb
              have hspec := (divideRecursive_ok_iff (flattenNested shape)
                (flattenNested stride) d (a, b) hflatlen).mp hrec
              refine ⟨?_, hss_u, hss_v, rfl⟩
              simpa [hfl_u, hfl_v] using hspec

theorem claim_C2_witness :
    (0 : Nat) < 72 ∧
    divideSpecFlat
        (flattenNested (.node [.leaf 3, .leaf 6, .leaf 2, .leaf 8]))
        (flattenNested (.node [.leaf 5, .leaf 15, .leaf 90, .leaf 180])) 72
      = some (flattenNested (.node [.leaf 1, .leaf 1, .leaf 1, .leaf 4]),
              flattenNested (.node [.leaf 360, .leaf 360, .leaf 360, .leaf 360])) :=
  ⟨by decide,
   (claim_C2 (.node [.leaf 3, .leaf 6, .leaf 2, .leaf 8])
      (.node [.leaf 5, .leaf 15, .leaf 90, .leaf 180]) 72
      (.node [.leaf 1, .leaf 1, .leaf 1, .leaf 4],
       .node [.leaf 360, .leaf 360, .leaf 360, .leaf 360])
      (by decide) (by decide) (by decide) rfl).1⟩

/-- C6: for a structurally matching layout, `divideLayout` raises (and
returns no numeric result) exactly when the spec's failure condition over
the flattened modes holds (`divideFailSpec`), and `composition` with a
leaf inner layout propagates exactly the division error. -/
theorem claim_C6 (shape stride : LayoutValue) (d : Nat)
    (hstruct : sameStruct shape stride = true) :
    ((∃ e, divideLayout shape stride d = .error e)
      ↔ divideFailSpec (flattenNested shape) d = true) ∧
    (∀ oS oT iS iT e, divideLayout oS oT iT = .error e →
      composition oS oT (.leaf iS) (.leaf iT) = .error e) := by
  constructor
  · have hflatlen : (flattenNested shape).length = (flattenNested stride).length :=
      sameStruct_flatten_length shape stride hstruct
    rw [← divideRecursive_error_iff (flattenNested shape) (flattenNested stride) d]
    cases hrec : divideRecursive (flattenNested shape) (flattenNested stride) d with
    | error e => simp [divideLayout, hrec]
    | ok q =>
        obtain ⟨a, b⟩ := q
        have hlen := divideRecursive_ok_lengths (flattenNested shape)
          (flattenNested stride) d a b hflatlen hrec
        have ha := (unflattenLike_of_length a shape (by rw [hlen.1])).1
        have hb := (unflattenLike_of_length b stride (by rw [hlen.2, hflatlen])).1
        simp [divideLayout, hrec, ha, hb]
  · intro oS oT iS iT e he
    simp [composition, he]

theorem claim_C6_witness :
    sameStruct (.node [.leaf 4, .leaf 8]) (.node [.leaf 1, .leaf 4]) = true ∧
    ((∃ e, divideLayout (.node [.leaf 4, .leaf 8]) (.node [.leaf 1, .leaf 4]) 3
        = .error e)
      ↔ divideFailSpec (flattenNested (.node [.leaf 4, .leaf 8])) 3 = true) :=
  ⟨by decide,
   (claim_C6 (.node [.leaf 4, .leaf 8]) (.node [.leaf 1, .leaf 4]) 3 (by decide)).1⟩

/-! ### Composition (C1) -/

theorem compositionModes_ok (oS oT : LayoutValue) :
    ∀ (ls ts A B : List LayoutValue),
    compositionModes oS oT ls ts = .ok (A, B) →
    A.length = ls.length ∧ B.length = ls.length ∧
    ∀ i, i < ls.length →
      ∃ c, composition oS oT (ls.getD i (.leaf 0)) (ts.getD i (.leaf 0)) = .ok c ∧
        coalesceLayout c.1 c.2 = (A.getD i (.leaf 0), B.getD i (.leaf 0))
  | [], ts, A, B => by
      intro hok
      simp only [compositionModes, Except.ok.injEq, Prod.mk.injEq] at hok
      obtain ⟨h1, h2⟩ := hok
      subst h1; subst h2
      exact ⟨rfl, rfl, fun i hi => absurd hi (by simp)⟩
  | _ :: _, [], A, B => by
      intro hok
      simp [compositionModes] at hok
  | iS :: rs, iT :: rt, A, B => by
      intro hok
      cases hc : composition oS oT iS iT with
      | error e => simp [compositionModes, hc] at hok
      | ok c =>
          cases hrest : compositionModes oS oT rs rt with
          | error e => simp [compositionModes, hc, hrest] at hok
          | ok q =>
              obtain ⟨ss2, ts2⟩ := q
              simp only [compositionModes, hc, hrest, Except.ok.injEq,
                Prod.mk.injEq] at hok
              obtain ⟨h1, h2⟩ := hok
              subst h1; subst h2
              obtain ⟨l1, l2, hrec⟩ := compositionModes_ok oS oT rs rt ss2 ts2 hrest
              refine ⟨by simp [l1], by simp [l2], ?_⟩
              intro i hi
              cases i with
              | zero =>
                  exact ⟨c, hc, by simp⟩
              | succ j =>
                  simp only [List.getD_cons_succ]
                  exact hrec j (by simpa using hi)

/-- C1: `composition` with a leaf inner layout is `divideLayout` by the
inner stride followed by `modShape` by the inner shape with the divided
stride unchanged; with a node inner layout of k modes every success is a
node of exactly k modes, the i-th being `coalesceLayout` of the
composition of the unmodified outer layout with inner mode i; and the
worked composition example holds. -/
theorem claim_C1 (outerShape outerStride : LayoutValue) :
    (∀ iS iT, composition outerShape outerStride (.leaf iS) (.leaf iT)
      = (divideLayout outerShape outerStride iT).map
          fun t => (modShape t.1 iS, t.2)) ∧
    (∀ ls ts out,
      composition outerShape outerStride (.node ls) (.node ts) = .ok out →
      ∃ A B, out = (.node A, .node B) ∧ A.length = ls.length ∧ B.length = ls.length ∧
        ∀ i, i < ls.length →
          ∃ c, composition outerShape outerStride
                (ls.getD i (.leaf 0)) (ts.getD i (.leaf 0)) = .ok c ∧
            coalesceLayout c.1 c.2 = (A.getD i (.leaf 0), B.getD i (.leaf 0))) ∧
    composition (.node [.leaf 3, .leaf 6, .leaf 2, .leaf 8])
        (.node [.leaf 5, .leaf 15, .leaf 90, .leaf 180]) (.leaf 16) (.leaf 9)
      = .ok (.node [.leaf 1, .leaf 2, .leaf 2, .leaf 4],
             .node [.leaf 45, .leaf 45, .leaf 90, .leaf 180]) := by
  refine ⟨?_, ?_, rfl⟩
  · intro iS iT
    cases hdiv : divideLayout outerShape outerStride iT with
    | error e => simp [composition, hdiv, Except.map]
    | ok q =>
        obtain ⟨q1, q2⟩ := q
        simp [composition, hdiv, Except.map]
  · intro ls ts out hok
    cases hm : compositionModes outerShape outerStride ls ts with
    | error e => simp [composition, hm] at hok
    | ok q =>
        obtain ⟨A, B⟩ := q
        simp only [composition, hm, Except.ok.injEq] at hok
        subst hok
        obtain ⟨h1, h2, h3⟩ := compositionModes_ok outerShape outerStride ls ts A B hm
        exact ⟨A, B, rfl, h1, h2, h3⟩

theorem claim_C1_witness :
    ∃ A B, ((.node [.leaf 2, .leaf 3], .node [.leaf 1, .leaf 2])
        : LayoutValue × LayoutValue) = (.node A, .node B) ∧
      A.length = 2 ∧ B.length = 2 ∧
      ∀ i, i < 2 →
        ∃ c, composition (.node [.leaf 6, .leaf 2]) (.node [.leaf 1, .leaf 6])
              ([LayoutValue.leaf 2, .leaf 3].getD i (.leaf 0))
              ([LayoutValue.leaf 1, .leaf 2].getD i (.leaf 0)) = .ok c ∧
          coalesceLayout c.1 c.2 = (A.getD i (.leaf 0), B.getD i (.leaf 0)) :=
  (claim_C1 (.node [.leaf 6, .leaf 2]) (.node [.leaf 1, .leaf 6])).2.1
    [.leaf 2, .leaf 3] [.leaf 1, .leaf 2]
    (.node [.leaf 2, .leaf 3], .node [.leaf 1, .leaf 2]) rfl

/-! ### Counting (C9) -/

theorem genCoordsList_length (l : List LayoutValue) :
    (genCoordsList l).length = l.length := by
  rw [genCoordsList_eq, List.length_map]

theorem combineRev_length : ∀ r : List (List LayoutValue), r ≠ [] →
    (combineRev r).length = (r.map List.length).prod
  | [] => by intro h; exact absurd rfl h
  | [xs] => by intro _; simp [combineRev]
  | x :: y :: rest => by
      intro _
      have ih := combineRev_length (y :: rest) (by simp)
      simp only [combineRev, List.length_flatMap, Function.comp_def,
        List.length_map, List.map_const', List.sum_replicate, smul_eq_mul,
        List.map_cons, List.prod_cons, ih]

mutual
theorem genCoords_length : ∀ shape : LayoutValue, validShape shape = true →
    (genCoords shape).length = countElements shape
  | .leaf n => by
      intro _
      simp [genCoords, countElements]
  | .node l => by
      intro h
      simp only [validShape, Bool.and_eq_true, decide_eq_true_eq] at h
      obtain ⟨hne, hl⟩ := h
      have hmap := genCoordsList_lengths l hl
      simp only [genCoords, countElements, combine]
      have hrne : (genCoordsList l).reverse ≠ [] := by
        simp [genCoordsList_length]
        intro hc
        exact hne (List.length_eq_zero.mp (by rw [← genCoordsList_length l, hc]; rfl))
      rw [combineRev_length _ hrne, List.map_reverse, List.prod_reverse, hmap,
        countElementsList_eq]

theorem genCoordsList_lengths : ∀ l : List LayoutValue, validShapeList l = true →
    (genCoordsList l).map List.length = l.map countElements
  | [] => by intro _; simp [genCoordsList]
  | x :: xs => by
      intro h
      simp only [validShapeList, Bool.and_eq_true] at h
      simp only [genCoordsList, List.map_cons]
      rw [genCoords_length x h.1, genCoordsList_lengths xs h.2]
end

/-- C9: for every valid shape (non-empty nodes, positive leaves),
`countElements` equals the length of the `generateCoordinates`
enumeration. -/
theorem claim_C9 (shape : LayoutValue) (h : validShape shape = true) :
    countElements shape = (generateCoordinates shape).length := by
  rw [generateCoordinates]
  simp only [Bool.false_eq_true, if_false]
  exact (genCoords_length shape h).symm

theorem claim_C9_witness :
    validShape (.node [.leaf 2, .leaf 3]) = true ∧
    countElements (.node [.leaf 2, .leaf 3])
      = (generateCoordinates (.node [.leaf 2, .leaf 3])).length :=
  ⟨by decide, claim_C9 (.node [.leaf 2, .leaf 3]) (by decide)⟩

/-! ### Column-major enumeration (C4) -/

theorem mixedRadixDigits_append (F : List Nat) : ∀ (i : Nat) (G : List Nat),
    mixedRadixDigits i (F ++ G)
      = mixedRadixDigits (i % F.prod) F ++ mixedRadixDigits (i / F.prod) G := by
  induction F with
  | nil =>
      intro i G
      simp [mixedRadixDigits]
  | cons s F' ih =>
      intro i G
      simp only [List.cons_append, mixedRadixDigits, List.prod_cons,
        List.append_eq]
      rw [ih (i / s) G]
      rw [Nat.mod_mod_of_dvd i (dvd_mul_right s F'.prod)]
      rw [Nat.mod_mul_right_div_self]
      rw [Nat.div_div_eq_div_mul]

theorem range_mul_flatMap (a : Nat) (f : Nat → List Nat) : ∀ b : Nat,
    (List.range (a * b)).map f
      = (List.range b).flatMap fun j => (List.range a).map fun k => f (a * j + k) := by
  intro b
  induction b with
  | zero => simp
  | succ b ih =>
      rw [Nat.mul_succ, List.range_add, List.map_append, ih, List.range_succ,
        List.flatMap_append]
      congr 1
      simp [List.map_map, Function.comp_def]

theorem colexEnum_append (F G : List Nat) :
    colexEnum (F ++ G)
      = (colexEnum G).flatMap fun bg => (colexEnum F).map fun ag => ag ++ bg := by
  simp only [colexEnum, List.prod_append]
  rw [range_mul_flatMap F.prod _ G.prod, List.flatMap_map]
  apply List.flatMap_congr
  intro j hj
  rw [List.map_map]
  apply List.map_congr_left
  intro k hk
  have hkPF : k < F.prod := List.mem_range.mp hk
  have hPF : 0 < F.prod := lt_of_le_of_lt (Nat.zero_le k) hkPF
  simp only [Function.comp_def]
  rw [mixedRadixDigits_append F, Nat.mul_add_mod, Nat.mod_eq_of_lt hkPF,
    Nat.mul_add_div hPF, Nat.div_eq_of_lt hkPF, Nat.add_zero]

theorem map_flattenCoord_combineStep (A : List LayoutValue) (lc : LayoutValue) :
    ((A.map fun rc => combineElem rc lc).map flattenCoord)
      = (A.map flattenCoord).map fun ag => ag ++ flattenCoord lc := by
  rw [List.map_map, List.map_map]
  apply List.map_congr_left
  intro x _
  simp [Function.comp_def, flattenCoord_combineElem]

theorem combineRev_colex : ∀ (r : List (List LayoutValue)) (Gs : List (List Nat)),
    List.Forall₂ (fun xs F => xs.map flattenCoord = colexEnum F) r Gs →
    r ≠ [] →
    (combineRev r).map flattenCoord = colexEnum Gs.reverse.flatten
  | [], _ => by
      intro _ hne
      exact absurd rfl hne
  | [xs], Gs => by
      intro hf _
      rcases hf with _ | ⟨hx, hnil⟩
      cases hnil
      simpa [combineRev] using hx
  | lastL :: y :: rest, Gs => by
      intro hf _
      rcases hf with _ | ⟨hlast, hf'⟩
      have ihEq := combineRev_colex (y :: rest) _ hf' (List.cons_ne_nil y rest)
      rw [combineRev, List.map_flatMap]
      simp only [map_flattenCoord_combineStep, ihEq]
      rw [← List.flatMap_map flattenCoord
        (fun b => (colexEnum _).map fun ag => ag ++ b) lastL]
      rw [hlast, ← colexEnum_append]
      · congr 1
        simp
      · exact fun h => List.noConfusion h
  termination_by r => r.length

mutual
theorem genCoords_colex : ∀ shape : LayoutValue, validShape shape = true →
    (genCoords shape).map flattenCoord = colexEnum (flattenNested shape)
  | .leaf n => by
      intro _
      simp only [genCoords, flattenNested, colexEnum, List.prod_cons,
        List.prod_nil, Nat.mul_one, List.map_map]
      apply List.map_congr_left
      intro i hi
      simp only [Function.comp_def, mixedRadixDigits]
      rw [Nat.mod_eq_of_lt (List.mem_range.mp hi)]
      rfl
  | .node l => by
      intro h
      simp only [validShape, Bool.and_eq_true, decide_eq_true_eq] at h
      obtain ⟨hne, hl⟩ := h
      have hforall := genCoordsList_colex l hl
      have hrev := List.rel_reverse hforall
      have hrne : (genCoordsList l).reverse ≠ [] := by
        intro hc
        apply hne
        have := congrArg List.length hc
        simp [genCoordsList_length] at this
        exact this
      have hmain := combineRev_colex (genCoordsList l).reverse
        (l.map flattenNested).reverse hrev hrne
      simp only [genCoords, combine, flattenNested]
      rw [hmain, List.reverse_reverse, ← flattenNestedList_eq]

theorem genCoordsList_colex : ∀ l : List LayoutValue, validShapeList l = true →
    List.Forall₂ (fun xs F => xs.map flattenCoord = colexEnum F)
      (genCoordsList l) (l.map flattenNested)
  | [] => by
      intro _
      simp only [genCoordsList, List.map_nil]
      exact List.Forall₂.nil
  | x :: xs => by
      intro h
      simp only [validShapeList, Bool.and_eq_true] at h
      simp only [genCoordsList, List.map_cons]
      exact List.Forall₂.cons (genCoords_colex x h.1) (genCoordsList_colex xs h.2)
end

/-- C4: for every valid shape the `generateCoordinates` enumeration, read
as flattened leaf sequences, is exactly the column-major mixed-radix
enumeration (index `i` maps to the digits of `i` over the flattened
leaves, first leaf fastest), with `countElements shape` entries; and the
`[2,3]` worked example holds with its exact nested values. -/
theorem claim_C4 (shape : LayoutValue) (h : validShape shape = true) :
    (generateCoordinates shape).map flattenCoord
      = (List.range (countElements shape)).map
          (fun i => mixedRadixDigits i (flattenNested shape)) ∧
    generateCoordinates (.node [.leaf 2, .leaf 3])
      = [.node [.leaf 0, .leaf 0], .node [.leaf 1, .leaf 0],
         .node [.leaf 0, .leaf 1], .node [.leaf 1, .leaf 1],
         .node [.leaf 0, .leaf 2], .node [.leaf 1, .leaf 2]] := by
  refine ⟨?_, by decide⟩
  rw [generateCoordinates]
  simp only [Bool.false_eq_true, if_false]
  rw [genCoords_colex shape h, colexEnum, countElements_eq_prod]

theorem claim_C4_witness :
    validShape (.node [.leaf 2, .leaf 3]) = true ∧
    (generateCoordinates (.node [.leaf 2, .leaf 3])).map flattenCoord
      = (List.range (countElements (.node [.leaf 2, .leaf 3]))).map
          (fun i => mixedRadixDigits i (flattenNested (.node [.leaf 2, .leaf 3]))) :=
  ⟨by decide, (claim_C4 (.node [.leaf 2, .leaf 3]) (by decide)).1⟩

/-! ### Coordinate structure (C3) -/

theorem combineRev_append_singleton_mem :
    ∀ (rs : List (List LayoutValue)) (L0 : List LayoutValue), rs ≠ [] →
    (∀ x ∈ L0, ∃ m, x = LayoutValue.leaf m) →
    ∀ c ∈ combineRev (rs ++ [L0]),
      ∃ cs, c = .node cs ∧
        List.Forall₂ (fun ci li => ci ∈ li) cs (L0 :: rs.reverse)
  | [], _ => by intro h; exact absurd rfl h
  | [L1], L0 => by
      intro _ hleaf c hc
      simp only [List.cons_append, List.nil_append, combineRev,
        List.mem_flatMap, List.mem_map] at hc
      obtain ⟨lc, hlc, rc, hrc, rfl⟩ := hc
      obtain ⟨m, rfl⟩ := hleaf rc hrc
      refine ⟨[.leaf m, lc], rfl, ?_⟩
      exact List.Forall₂.cons hrc (List.Forall₂.cons hlc List.Forall₂.nil)
  | lastL :: y :: rest, L0 => by
      intro _ hleaf c hc
      simp only [List.cons_append, combineRev, List.mem_flatMap,
        List.mem_map] at hc
      obtain ⟨lc, hlc, rc, hrc, rfl⟩ := hc
      have hrc' : rc ∈ combineRev ((y :: rest) ++ [L0]) := by
        simpa using hrc
      clear hrc
      rename' hrc' => hrc
      obtain ⟨cs', hcs', hf⟩ := combineRev_append_singleton_mem (y :: rest) L0
        (List.cons_ne_nil y rest) hleaf rc hrc
      subst hcs'
      refine ⟨cs' ++ [lc], rfl, ?_⟩
      have hsingle : List.Forall₂ (fun (ci : LayoutValue) (li : List LayoutValue) =>
          ci ∈ li) [lc] [lastL] := List.Forall₂.cons hlc List.Forall₂.nil
      have happ := List.rel_append hf hsingle
      simpa [List.reverse_cons] using happ

mutual
theorem genCoords_sameStruct : ∀ shape : LayoutValue, nestOk shape = true →
    ∀ c ∈ genCoords shape, sameStruct c shape = true
  | .leaf n => by
      intro _ c hc
      simp only [genCoords, List.mem_map] at hc
      obtain ⟨i, _, rfl⟩ := hc
      rfl
  | .node [] => by intro h; simp [nestOk] at h
  | .node [x] => by
      intro h
      rcases x with a | cs <;> simp [nestOk] at h
  | .node (.node cs0 :: y :: rest) => by
      intro h
      simp [nestOk] at h
  | .node (.leaf a :: y :: rest) => by
      intro h c hc
      simp only [nestOk] at h
      simp only [genCoords, combine, genCoordsList, List.reverse_cons] at hc
      have hrs : (genCoords y :: genCoordsList rest).reverse ≠ [] := by
        simp
      have hleaf : ∀ x ∈ genCoords (LayoutValue.leaf a), ∃ m, x = LayoutValue.leaf m := by
        intro x hx
        simp only [genCoords, List.mem_map] at hx
        obtain ⟨i, _, rfl⟩ := hx
        exact ⟨i, rfl⟩
      have hc' : c ∈ combineRev ((genCoords y :: genCoordsList rest).reverse
          ++ [genCoords (LayoutValue.leaf a)]) := by
        simpa using hc
      obtain ⟨cs, rfl, hf⟩ := combineRev_append_singleton_mem _ _ hrs hleaf c hc'
      rw [List.reverse_reverse] at hf
      rcases hf with _ | ⟨hc0, hf'⟩
      simp only [sameStruct, sameStructList, Bool.and_eq_true]
      obtain ⟨m, rfl⟩ := hleaf _ hc0
      exact ⟨rfl, genCoordsList_sameStruct (y :: rest) _ h hf'⟩

theorem genCoordsList_sameStruct : ∀ (l cs : List LayoutValue),
    nestOkList l = true →
    List.Forall₂ (fun ci li => ci ∈ li) cs (genCoordsList l) →
    sameStructList cs l = true
  | [], cs => by
      intro _ hf
      simp only [genCoordsList] at hf
      cases hf
      rfl
  | x :: xs, cs => by
      intro h hf
      simp only [nestOkList, Bool.and_eq_true] at h
      simp only [genCoordsList] at hf
      rcases hf with _ | ⟨hc0, hf'⟩
      simp only [sameStructList, Bool.and_eq_true]
      exact ⟨genCoords_sameStruct x h.1 _ hc0,
        genCoordsList_sameStruct xs _ h.2 hf'⟩
end

/-- C3 counterexample: for the shape `[[2,2],2]` the first generated
coordinate is the flat `[0,0,0]`, whose tree structure differs from the
shape's nesting, refuting the claim as stated. -/
theorem claim_C3_counterexample :
    ¬ ∀ c ∈ generateCoordinates (.node [.node [.leaf 2, .leaf 2], .leaf 2]) false,
        sameStruct c (.node [.node [.leaf 2, .leaf 2], .leaf 2]) = true := by
  decide

/-- C3 (amended): every coordinate produced by
`generateCoordinates(shape, false)` has tree structure identical to the
shape's, provided every node of the shape has at least two children and
the first child of every node is a leaf (the code spreads a nested first
mode and unwraps singleton nodes, so the claim fails without this
restriction). -/
theorem claim_C3 (shape : LayoutValue) (h : nestOk shape = true) :
    ∀ c ∈ generateCoordinates shape false, sameStruct c shape = true := by
  rw [generateCoordinates]
  simp only [Bool.false_eq_true, if_false]
  exact genCoords_sameStruct shape h

theorem claim_C3_witness :
    nestOk (.node [.leaf 2, .node [.leaf 2, .leaf 3]]) = true ∧
    ∀ c ∈ generateCoordinates (.node [.leaf 2, .node [.leaf 2, .leaf 3]]) false,
      sameStruct c (.node [.leaf 2, .node [.leaf 2, .leaf 3]]) = true :=
  ⟨by decide, claim_C3 _ (by decide)⟩

/-! ### Offset to coordinate (C5) -/

theorem offsetDigitsGo_eq_digits : ∀ (l : List Nat) (off : Nat),
    offsetDigitsGo l off = (mixedRadixDigits off l).map .leaf
  | [], off => rfl
  | dim :: rest, off => by
      simp only [offsetDigitsGo, mixedRadixDigits, List.map_cons]
      rw [offsetDigitsGo_eq_digits rest (off / dim)]

theorem flattenNestedList_map_leaf (F : List Nat) :
    flattenNestedList (F.map .leaf) = F := by
  induction F with
  | nil => rfl
  | cons x xs ih => simp [flattenNestedList, flattenNested, ih]

/-- C5 counterexample: for the nested shape `[2,[2,2]]` and offset 0 the
returned coordinate is the flat `[0,0,0]`, whose tree structure differs
from the shape's nesting, refuting the reassembly part of the claim. -/
theorem claim_C5_counterexample :
    offsetToCoordinate 0 (.node [.leaf 2, .node [.leaf 2, .leaf 2]])
      = .node [.leaf 0, .leaf 0, .leaf 0] ∧
    sameStruct (offsetToCoordinate 0 (.node [.leaf 2, .node [.leaf 2, .leaf 2]]))
      (.node [.leaf 2, .node [.leaf 2, .leaf 2]]) = false := by
  decide

/-- C5 (amended): `offsetToCoordinate` computes the coordinate by repeated
mod/div against the flattened shape leaves in column-major order, but it
returns the digits as a flat single-level node (a leaf shape yields the
single leaf `offset % shape`); the result is not reassembled into the
shape's original nesting. -/
theorem claim_C5 (offset : Nat) (shape : LayoutValue) :
    flattenCoord (offsetToCoordinate offset shape)
      = mixedRadixDigits offset (flattenNested shape) ∧
    (∀ n, shape = .leaf n → offsetToCoordinate offset shape = .leaf (offset % n)) ∧
    (∀ l, shape = .node l →
      offsetToCoordinate offset shape
        = .node ((mixedRadixDigits offset (flattenNested shape)).map .leaf)) := by
  refine ⟨?_, ?_, ?_⟩
  · cases shape with
    | leaf n =>
        simp [offsetToCoordinate, flattenCoord, flattenNested, mixedRadixDigits,
          flattenNestedList]
    | node l =>
        simp only [offsetToCoordinate, flattenCoord, flattenNested]
        rw [offsetDigitsGo_eq_digits, flattenNestedList_map_leaf]
  · intro n hn
    subst hn
    rfl
  · intro l hl
    subst hl
    simp only [offsetToCoordinate]
    rw [offsetDigitsGo_eq_digits]

theorem claim_C5_witness :
    flattenCoord (offsetToCoordinate 5 (.node [.leaf 4, .leaf 8]))
      = mixedRadixDigits 5 (flattenNested (.node [.leaf 4, .leaf 8])) :=
  (claim_C5 5 (.node [.leaf 4, .leaf 8])).1

end LayoutViz
